import Mathlib

/-!
Verification of the TikCrop smart-crop detection engine and enhancement
engine against their natural-language specification.

The detection engine (grayscale → blur → Sobel/threshold edge mask →
flood-fill contours → bounding boxes → area filter → proximity merge →
final selection) and the enhancement engine (adaptive upscale → sharpen →
contrast/brightness) are shallowly embedded below.  JavaScript numbers are
modelled as rationals (`ℚ`); pixel stores into `Uint8ClampedArray` are
modelled by `toU8Clamp`, which clamps to `[0,255]` and rounds to the
nearest integer with ties to even, exactly as ECMAScript's `ToUint8Clamp`
does.  `while` loops are modelled with an explicit fuel argument together
with lemmas showing the supplied fuel is always sufficient, so every
definition is executable and the loop semantics agree with the source.
-/

unseal Rat.add Rat.sub Rat.mul Rat.inv Rat.ofScientific

set_option maxRecDepth 10000

namespace TikCrop

/-- ECMAScript `ToUint8Clamp` rounding: round to nearest, ties to even.
Defined on rationals (the model of JS numbers). -/
def rne (q : ℚ) : ℤ :=
  if q - ⌊q⌋ < 1/2 then ⌊q⌋
  else if q - ⌊q⌋ > 1/2 then ⌊q⌋ + 1
  else if ⌊q⌋ % 2 = 0 then ⌊q⌋ else ⌊q⌋ + 1

/-- Store a JS number into a `Uint8ClampedArray` cell: clamp to `[0,255]`
then round to nearest with ties to even (ECMAScript `ToUint8Clamp`). -/
def toU8Clamp (q : ℚ) : ℕ :=
  if q ≤ 0 then 0
  else if 255 ≤ q then 255
  else (rne q).toNat

/-- Axis-aligned crop rectangle, coordinates modelled as rationals
(JS numbers). Mirrors the `CropBox` type `{x, y, w, h}` of the source. -/
structure CropBox where
  x : ℚ
  y : ℚ
  w : ℚ
  h : ℚ
deriving DecidableEq, Repr

/-- Smallest box containing both inputs (source function `mergeRects`). -/
def mergeRects (r1 r2 : CropBox) : CropBox :=
  let x := min r1.x r2.x
  let y := min r1.y r2.y
  let w := max (r1.x + r1.w) (r2.x + r2.w) - x
  let h := max (r1.y + r1.h) (r2.y + r2.h) - y
  ⟨x, y, w, h⟩

/-- Proximity test of the source: expand `r1` by `margin` on all sides and
test open-interval axis-aligned intersection against `r2`. -/
def shouldMerge (r1 r2 : CropBox) (margin : ℚ) : Bool :=
  let ex := r1.x - margin
  let ey := r1.y - margin
  let ew := r1.w + 2 * margin
  let eh := r1.h + 2 * margin
  decide (ex < r2.x + r2.w ∧ ex + ew > r2.x ∧ ey < r2.y + r2.h ∧ ey + eh > r2.y)

/-- Inner scan of `mergeNearbyBoxes`: find the first box in the list that
should merge with `a`; return the merged box and the remaining list. -/
def findPartner (margin : ℚ) (a : CropBox) : List CropBox → Option (CropBox × List CropBox)
  | [] => none
  | b :: rest =>
    if shouldMerge a b margin then some (mergeRects a b, rest)
    else
      match findPartner margin a rest with
      | some (m, rest') => some (m, b :: rest')
      | none => none

/-- One full pass of the nested `i`/`j` scan of `mergeNearbyBoxes`: on the
first mergeable pair `(i, j)` replace box `i` by the merge and drop box `j`
(the JS `boxes[i] = mergeRects(...); boxes.splice(j, 1)`). `none` means a
full pass found no mergeable pair. -/
def mergePass (margin : ℚ) : List CropBox → Option (List CropBox)
  | [] => none
  | a :: rest =>
    match findPartner margin a rest with
    | some (m, rest') => some (m :: rest')
    | none =>
      match mergePass margin rest with
      | some rest' => some (a :: rest')
      | none => none

/-- The `while (merged)` loop of `mergeNearbyBoxes`, with an explicit fuel
bound.  Each successful pass removes exactly one box, so fuel equal to the
initial list length always suffices (`mergeLoop_fixpoint` below); with that
much fuel the fuel-exhaustion branch coincides with normal loop exit. -/
def mergeLoop (margin : ℚ) : ℕ → List CropBox → List CropBox
  | 0, boxes => boxes
  | fuel + 1, boxes =>
    match mergePass margin boxes with
    | some boxes' => mergeLoop margin fuel boxes'
    | none => boxes

/-- Source function `mergeNearbyBoxes`: merge distance is 5% of the smaller
image dimension; iterate passes until none merges. -/
def mergeNearbyBoxes (boxes : List CropBox) (imgWidth imgHeight : ℚ) : List CropBox :=
  if boxes.length < 2 then boxes
  else mergeLoop (min imgWidth imgHeight * 0.05) boxes.length boxes

/-! ### Pixel buffers, grayscale reduction, and the enhancement engine -/

/-- In-memory image buffer `{data, width, height}` as passed between the
pipeline stages.  For RGBA buffers `data` holds 4 bytes per pixel in
row-major order; for single-channel (gray / binary-mask) buffers it holds
one byte per pixel.  Out-of-range reads yield 0 (JS `undefined` feeding the
arithmetic only happens on ill-formed buffers; all stages index in
bounds). -/
structure PixBuf where
  data : List ℕ
  width : ℕ
  height : ℕ
deriving DecidableEq, Repr

/-- Source function `toGrayscale`: per pixel store the unweighted mean of
R, G, B into a `Uint8ClampedArray` (which rounds to nearest); alpha is
dropped.  The loop writes index `i/4` for each quad starting at `i`, which
over a well-formed buffer is exactly one write per pixel index. -/
def toGrayscale (img : PixBuf) : PixBuf :=
  ⟨(List.range (img.width * img.height)).map fun i =>
      toU8Clamp ((((img.data.getD (4 * i) 0 + img.data.getD (4 * i + 1) 0
        + img.data.getD (4 * i + 2) 0 : ℕ) : ℚ)) / 3),
    img.width, img.height⟩

/-- Source function `gaussianBlur`: fixed 3×3 kernel `[1,2,1,2,4,2,1,2,1]`
divided by 16, interior pixels only; border pixels stay 0. -/
def gaussianBlur (g : PixBuf) : PixBuf :=
  ⟨(List.range (g.width * g.height)).map fun idx =>
      let x := idx % g.width
      let y := idx / g.width
      if 1 ≤ x ∧ x + 1 < g.width ∧ 1 ≤ y ∧ y + 1 < g.height then
        let d := fun (a b : ℕ) => g.data.getD (b * g.width + a) 0
        toU8Clamp (((d (x-1) (y-1) * 1 + d x (y-1) * 2 + d (x+1) (y-1) * 1
          + d (x-1) y * 2 + d x y * 4 + d (x+1) y * 2
          + d (x-1) (y+1) * 1 + d x (y+1) * 2 + d (x+1) (y+1) * 1 : ℕ) : ℚ) / 16)
      else 0,
    g.width, g.height⟩

/-- Source function `cannyEdgeDetector`: Sobel gradient on interior pixels;
mark 255 iff `sqrt(gx² + gy²) > threshold`, which for a non-negative
threshold is equivalent to the square-free test `gx² + gy² > threshold²`
used here; border pixels stay 0. -/
def cannyEdgeDetector (g : PixBuf) (threshold : ℕ) : PixBuf :=
  ⟨(List.range (g.width * g.height)).map fun idx =>
      let x := idx % g.width
      let y := idx / g.width
      if 1 ≤ x ∧ x + 1 < g.width ∧ 1 ≤ y ∧ y + 1 < g.height then
        let d := fun (a b : ℕ) => (g.data.getD (b * g.width + a) 0 : ℤ)
        let gx := -d (x-1) (y-1) + d (x+1) (y-1)
          - 2 * d (x-1) y + 2 * d (x+1) y
          - d (x-1) (y+1) + d (x+1) (y+1)
        let gy := -d (x-1) (y-1) - 2 * d x (y-1) - d (x+1) (y-1)
          + d (x-1) (y+1) + 2 * d x (y+1) + d (x+1) (y+1)
        if gx * gx + gy * gy > (threshold : ℤ) * threshold then 255 else 0
      else 0,
    g.width, g.height⟩

/-- Sharpening convolution of `enhanceImage` (kernel `[0,-1,0,-1,5,-1,0,-1,0]`),
applied to R, G, B with out-of-bounds taps skipped; alpha copied; the
integer result is clamped to `[0,255]` before the store. -/
def sharpSum (data : List ℕ) (w h : ℕ) (pix c : ℕ) : ℤ :=
  let tap := fun (l k wt : ℤ) =>
    let x : ℤ := (pix % w : ℕ) + l
    let y : ℤ := (pix / w : ℕ) + k
    if 0 ≤ x ∧ x < w ∧ 0 ≤ y ∧ y < h then
      (data.getD ((y * w + x).toNat * 4 + c) 0 : ℤ) * wt
    else 0
  tap (-1) (-1) 0 + tap 0 (-1) (-1) + tap 1 (-1) 0
    + tap (-1) 0 (-1) + tap 0 0 5 + tap 1 0 (-1)
    + tap (-1) 1 0 + tap 0 1 (-1) + tap 1 1 0

/-- Stage 2 of `enhanceImage`: per-channel sharpen into a fresh buffer. -/
def sharpen (data : List ℕ) (w h : ℕ) : List ℕ :=
  (List.range data.length).map fun i =>
    if i % 4 = 3 then data.getD i 0
    else (max 0 (min 255 (sharpSum data w h (i / 4) (i % 4)))).toNat

/-- Stage 3 of `enhanceImage`: contrast/brightness
`data[i] = Math.max(0, Math.min(255, 1.05 * data[i] + 10))` on R, G, B of
each quad, stored through `Uint8ClampedArray` rounding; alpha untouched. -/
def contrastStage : List ℕ → List ℕ
  | r :: g :: b :: a :: rest =>
    toU8Clamp (max 0 (min 255 ((1.05 : ℚ) * r + 10)))
      :: toU8Clamp (max 0 (min 255 ((1.05 : ℚ) * g + 10)))
      :: toU8Clamp (max 0 (min 255 ((1.05 : ℚ) * b + 10)))
      :: a :: contrastStage rest
  | l => l

/-- Source function `enhanceImage`.  The browser draw/decode of the source
image at a requested size is the out-of-repository collaborator `draw`
(`drawImage` + `getImageData`); everything after it is the code's own
arithmetic.  If either dimension is below 512 the working buffer is the
2×-upscaled rendering, else the original-size rendering; then sharpen,
then contrast; the output blob has the working dimensions. -/
def enhanceImage (draw : ℕ → ℕ → List ℕ) (imgW imgH : ℕ) : PixBuf :=
  if imgH < 512 ∨ imgW < 512 then
    ⟨contrastStage (sharpen (draw (imgW * 2) (imgH * 2)) (imgW * 2) (imgH * 2)),
      imgW * 2, imgH * 2⟩
  else
    ⟨contrastStage (sharpen (draw imgW imgH) imgW imgH), imgW, imgH⟩

/-! ### Contour extraction (flood fill over the binary edge mask) -/

/-- Mask lookup `data[y * width + x]`; out-of-range reads give 0 (JS
`undefined`, which compares unequal to 255 exactly as 0 does). -/
def maskAt (m : PixBuf) (p : ℕ × ℕ) : ℕ :=
  m.data.getD (p.2 * m.width + p.1) 0

/-- The set of edge pixels of a mask: in-bounds positions holding 255. -/
def edgeFinset (m : PixBuf) : Finset (ℕ × ℕ) :=
  (Finset.range m.width ×ˢ Finset.range m.height).filter fun p => maskAt m p = 255

/-- The eight neighbour offsets `(dx, dy)` in the `dy`-outer, `dx`-inner
iteration order of the source, with `(0,0)` skipped. -/
def nbrOffsets : List (ℤ × ℤ) :=
  [(-1,-1), (0,-1), (1,-1), (-1,0), (1,0), (-1,1), (0,1), (1,1)]

/-- Neighbour scan of one dequeued point: for each offset in order, if the
neighbour is in bounds, edge-valued and unvisited, mark it visited and
append it to the BFS queue (the inner `dx`/`dy` loops of `findContours`). -/
def visitNbrsAux (m : PixBuf) (p : ℕ × ℕ) :
    List (ℤ × ℤ) → Finset (ℕ × ℕ) → Finset (ℕ × ℕ) × List (ℕ × ℕ)
  | [], v => (v, [])
  | d :: ds, v =>
    let nx : ℤ := (p.1 : ℤ) + d.1
    let ny : ℤ := (p.2 : ℤ) + d.2
    if 0 ≤ nx ∧ nx < m.width ∧ 0 ≤ ny ∧ ny < m.height ∧
        maskAt m (nx.toNat, ny.toNat) = 255 ∧ (nx.toNat, ny.toNat) ∉ v then
      let r := visitNbrsAux m p ds (insert (nx.toNat, ny.toNat) v)
      (r.1, (nx.toNat, ny.toNat) :: r.2)
    else visitNbrsAux m p ds v

/-- All eight neighbours of `p` processed in source order. -/
def visitNbrs (m : PixBuf) (p : ℕ × ℕ) (v : Finset (ℕ × ℕ)) :
    Finset (ℕ × ℕ) × List (ℕ × ℕ) :=
  visitNbrsAux m p nbrOffsets v

/-- The `while (queue.length > 0)` flood-fill loop: dequeue a point, add it
to the contour, enqueue its unvisited edge neighbours.  Fuel-indexed; each
step removes one queue entry and the queue only grows by newly visited
edge pixels, so fuel `width*height + 1` always suffices (`bfsLoop_spec`),
making the fuel-exhaustion branch unreachable. -/
def bfsLoop (m : PixBuf) : ℕ → List (ℕ × ℕ) → Finset (ℕ × ℕ) →
    List (ℕ × ℕ) × Finset (ℕ × ℕ)
  | 0, _, v => ([], v)
  | _ + 1, [], v => ([], v)
  | fuel + 1, p :: rest, v =>
    let r := visitNbrs m p v
    let out := bfsLoop m fuel (rest ++ r.2) r.1
    (p :: out.1, out.2)

/-- Row-major scan order of all pixel positions `(x, y)`. -/
def scanList (m : PixBuf) : List (ℕ × ℕ) :=
  (List.range m.height).flatMap fun y => (List.range m.width).map fun x => (x, y)

/-- Body of the outer scan of `findContours`: an unvisited edge pixel seeds
a flood fill whose collected points form the next contour. -/
def scanCell (m : PixBuf) (st : Finset (ℕ × ℕ) × List (List (ℕ × ℕ)))
    (p : ℕ × ℕ) : Finset (ℕ × ℕ) × List (List (ℕ × ℕ)) :=
  if maskAt m p = 255 ∧ p ∉ st.1 then
    let r := bfsLoop m (m.width * m.height + 1) [p] (insert p st.1)
    (r.2, st.2 ++ [r.1])
  else st

/-- Source function `findContours`: row-major scan with BFS flood fill over
8-connected edge pixels; returns the contours in discovery order. -/
def findContours (m : PixBuf) : List (List (ℕ × ℕ)) :=
  ((scanList m).foldl (scanCell m) (∅, [])).2

/-- Invariant of the outer row-major scan: the contours collected so far
are duplicate-free, their points are exactly the visited set, and all of
them are edge pixels. -/
def ScanInv (m : PixBuf) (st : Finset (ℕ × ℕ) × List (List (ℕ × ℕ))) : Prop :=
  st.2.flatten.Nodup ∧ st.2.flatten.toFinset = st.1 ∧ st.1 ⊆ edgeFinset m

/-! ### Crop candidate selection (pipeline orchestration) -/

/-- Source function `getBoundingRect`: min/max of the coordinates of a
contour's points; the empty contour yields the zero box. -/
def getBoundingRect (contour : List (ℕ × ℕ)) : CropBox :=
  match contour with
  | [] => ⟨0, 0, 0, 0⟩
  | p :: rest =>
    ⟨(rest.foldl (fun acc q => min acc q.1) p.1 : ℕ),
      (rest.foldl (fun acc q => min acc q.2) p.2 : ℕ),
      ((rest.foldl (fun acc q => max acc q.1) p.1 : ℕ) : ℚ)
        - (rest.foldl (fun acc q => min acc q.1) p.1 : ℕ),
      ((rest.foldl (fun acc q => max acc q.2) p.2 : ℕ) : ℚ)
        - (rest.foldl (fun acc q => min acc q.2) p.2 : ℕ)⟩

/-- The reducer of the final `mergedBoxes.reduce`: keep the box with the
strictly larger area, the earlier box on ties. -/
def pickLarger (largest current : CropBox) : CropBox :=
  if current.w * current.h > largest.w * largest.h then current else largest

/-- Final sanity check of `suggestCropWithEdgeDetection`: reject the chosen
box as no-suggestion when its area exceeds 95% of the image area. -/
def finalCheck (best : CropBox) (width height : ℕ) : Option CropBox :=
  if best.w * best.h / ((width : ℚ) * (height : ℚ)) > 0.95 then none else some best

/-- Steps 7–9 of the selector: empty merge result gives no-suggestion, else
reduce to the maximum-area box and apply the 95% sanity check. -/
def selectStage (boxes : List CropBox) (width height : ℕ) : Option CropBox :=
  match boxes with
  | [] => none
  | b :: rest => finalCheck (rest.foldl pickLarger b) width height

/-- The fixed Canny threshold pair of the source (`[30, 70]`). -/
def thresholds : List ℕ := [30, 70]

/-- The pure pixel pipeline of `suggestCropWithEdgeDetection`, from the
`getImageData` result to the returned box: grayscale, blur, per-threshold
edge masks and contours pooled together, bounding rects, 1.5% relative
area filter, proximity merge, max-area selection, 95% sanity check. -/
def suggestCropPipeline (width height : ℕ) (data : List ℕ) : Option CropBox :=
  let blurred := gaussianBlur (toGrayscale ⟨data, width, height⟩)
  let allContours := (thresholds.map fun t => findContours (cannyEdgeDetector blurred t)).flatten
  if allContours.isEmpty then none
  else
    let validBoxes := (allContours.map getBoundingRect).filter
      fun b => decide (b.w * b.h > ((width * height : ℕ) : ℚ) * 0.015)
    if validBoxes.isEmpty then none
    else
      let mergedBoxes := mergeNearbyBoxes validBoxes (width : ℚ) (height : ℚ)
      if mergedBoxes.isEmpty then none
      else selectStage mergedBoxes width height

/-- The environment `suggestCropWithEdgeDetection` reads from the browser:
whether `canvas.getContext` succeeds, and the decoded image's natural
dimensions with its RGBA raster (`getImageData`). -/
structure CanvasEnv where
  ctxOk : Bool
  width : ℕ
  height : ℕ
  data : List ℕ
deriving Repr

/-- The `try` body of `suggestCropWithEdgeDetection`: an unavailable 2d
context raises `"Could not get canvas context"`; otherwise the pixel
pipeline runs and its result is returned. -/
def suggestCropTry (e : CanvasEnv) : Except String (Option CropBox) :=
  if e.ctxOk then Except.ok (suggestCropPipeline e.width e.height e.data)
  else Except.error "Could not get canvas context"

/-- Source function `suggestCropWithEdgeDetection`: the whole body runs in
a `try`; the `catch` handler logs the error and returns `null`. -/
def suggestCropWithEdgeDetection (e : CanvasEnv) : Option CropBox :=
  match suggestCropTry e with
  | Except.ok r => r
  | Except.error _ => none

/-- Box soundness invariant carried through filtering and merging:
non-negative position and size, contained in the `W × H` image, with area
strictly above `minArea`. -/
def GoodBox (W H : ℕ) (minArea : ℚ) (b : CropBox) : Prop :=
  0 ≤ b.x ∧ 0 ≤ b.y ∧ 0 ≤ b.w ∧ 0 ≤ b.h ∧
    b.x + b.w ≤ (W : ℚ) ∧ b.y + b.h ≤ (H : ℚ) ∧ minArea < b.w * b.h

/-- Concrete 10×10 RGBA test image: black background with a solid white
6×6 square whose corners are `(2,2)` and `(7,7)`; used to instantiate the
pipeline theorems on an input where detection succeeds. -/
def demoData : List ℕ :=
  (List.range 100).flatMap fun i =>
    if 2 ≤ i % 10 ∧ i % 10 ≤ 7 ∧ 2 ≤ i / 10 ∧ i / 10 ≤ 7 then
      [255, 255, 255, 255]
    else [0, 0, 0, 255]

/-- Environment with an available context and the demo image decoded. -/
def demoEnv : CanvasEnv := ⟨true, 10, 10, demoData⟩

lemma rne_le_of_lt (q : ℚ) (h : q < 255) : rne q ≤ 255 := by
  have hf : (⌊q⌋ : ℚ) ≤ q := Int.floor_le q
  have hf255 : ⌊q⌋ ≤ 254 := by
    have : ⌊q⌋ < 255 := by
      have := Int.floor_le_floor (le_of_lt h)
      have h255 : (⌊(255:ℚ)⌋ : ℤ) = 255 := by norm_num
      by_contra hc
      push_neg at hc
      have : (255 : ℚ) ≤ ⌊q⌋ := by exact_mod_cast hc
      linarith [Int.floor_le q]
    omega
  unfold rne
  split_ifs <;> omega

lemma toU8Clamp_le (q : ℚ) : toU8Clamp q ≤ 255 := by
  unfold toU8Clamp
  split
  · omega
  · split
    · omega
    · rename_i h1 h2
      push_neg at h1 h2
      have := rne_le_of_lt q h2
      omega

lemma findPartner_some_length (margin : ℚ) (a : CropBox) :
    ∀ (l : List CropBox) (m : CropBox) (rest' : List CropBox),
      findPartner margin a l = some (m, rest') → rest'.length + 1 = l.length := by
  intro l
  induction l with
  | nil => intro m rest' h; simp [findPartner] at h
  | cons b rest ih =>
    intro m rest' h
    simp only [findPartner] at h
    split at h
    · simp only [Option.some.injEq, Prod.mk.injEq] at h
      rw [← h.2]
      simp
    · rcases hfp : findPartner margin a rest with _ | ⟨m', rest''⟩
      · rw [hfp] at h; simp at h
      · rw [hfp] at h
        simp only [Option.some.injEq, Prod.mk.injEq] at h
        have := ih m' rest'' hfp
        rw [← h.2]
        simp only [List.length_cons]
        omega

lemma mergePass_some_length (margin : ℚ) :
    ∀ (l l' : List CropBox), mergePass margin l = some l' → l'.length + 1 = l.length := by
  intro l
  induction l with
  | nil => intro l' h; simp [mergePass] at h
  | cons a rest ih =>
    intro l' h
    simp only [mergePass] at h
    rcases hfp : findPartner margin a rest with _ | ⟨m, rest'⟩
    · rw [hfp] at h
      rcases hmp : mergePass margin rest with _ | rest''
      · rw [hmp] at h; simp at h
      · rw [hmp] at h
        simp only [Option.some.injEq] at h
        have := ih rest'' hmp
        rw [← h]
        simp only [List.length_cons]
        omega
    · rw [hfp] at h
      simp only [Option.some.injEq] at h
      have := findPartner_some_length margin a rest m rest' hfp
      rw [← h]
      simp only [List.length_cons]
      omega

lemma mergePass_short (margin : ℚ) (l : List CropBox) (h : l.length ≤ 1) :
    mergePass margin l = none := by
  match l with
  | [] => simp [mergePass]
  | [a] => simp [mergePass, findPartner]
  | a :: b :: rest => simp at h

/-- After `mergeLoop` runs with enough fuel, a further pass finds nothing. -/
lemma mergeLoop_fixpoint (margin : ℚ) :
    ∀ (fuel : ℕ) (l : List CropBox), l.length ≤ fuel + 1 →
      mergePass margin (mergeLoop margin fuel l) = none := by
  intro fuel
  induction fuel with
  | zero =>
    intro l hl
    simpa [mergeLoop] using mergePass_short margin l hl
  | succ n ih =>
    intro l hl
    simp only [mergeLoop]
    rcases hmp : mergePass margin l with _ | l'
    · exact hmp
    · have hlen := mergePass_some_length margin l l' hmp
      exact ih l' (by omega)

lemma mergeLoop_of_pass_none (margin : ℚ) (fuel : ℕ) (l : List CropBox)
    (h : mergePass margin l = none) : mergeLoop margin fuel l = l := by
  cases fuel with
  | zero => simp [mergeLoop]
  | succ n => simp [mergeLoop, h]

/-- C4 (helper): `mergeNearbyBoxes` is idempotent. -/
lemma mergeNearbyBoxes_idem (boxes : List CropBox) (imgWidth imgHeight : ℚ) :
    mergeNearbyBoxes (mergeNearbyBoxes boxes imgWidth imgHeight) imgWidth imgHeight =
      mergeNearbyBoxes boxes imgWidth imgHeight := by
  by_cases hlen : boxes.length < 2
  · simp only [mergeNearbyBoxes, if_pos hlen]
  · have hfix := mergeLoop_fixpoint (min imgWidth imgHeight * 0.05) boxes.length boxes (by omega)
    simp only [mergeNearbyBoxes, if_neg hlen]
    split
    · rfl
    · exact mergeLoop_of_pass_none _ _ _ hfix

/-- C3: `shouldMerge` is symmetric in its two boxes for every margin. -/
theorem shouldMerge_symm_thm (a b : CropBox) (m : ℚ) (_hm : 0 ≤ m) :
    shouldMerge a b m = shouldMerge b a m := by
  simp only [shouldMerge, decide_eq_decide]
  constructor <;> intro h <;>
    refine ⟨by linarith [h.2.1], by linarith [h.1], by linarith [h.2.2.2], by linarith [h.2.2.1]⟩

/-- C3 witness: symmetry applied at a concrete pair of boxes and margin. -/
theorem shouldMerge_symm_witness :
    (0:ℚ) ≤ 1 ∧
      shouldMerge ⟨0, 0, 2, 2⟩ ⟨5, 5, 1, 1⟩ 1 = shouldMerge ⟨5, 5, 1, 1⟩ ⟨0, 0, 2, 2⟩ 1 :=
  ⟨by norm_num, shouldMerge_symm_thm ⟨0, 0, 2, 2⟩ ⟨5, 5, 1, 1⟩ 1 (by norm_num)⟩

/-- C4: `mergeNearbyBoxes` is idempotent: re-running it on its own output
with the same image dimensions returns that output unchanged. -/
theorem mergeNearbyBoxes_idem_thm (boxes : List CropBox) (imgWidth imgHeight : ℚ) :
    mergeNearbyBoxes (mergeNearbyBoxes boxes imgWidth imgHeight) imgWidth imgHeight =
      mergeNearbyBoxes boxes imgWidth imgHeight :=
  mergeNearbyBoxes_idem boxes imgWidth imgHeight

lemma getD_map_range (n : ℕ) (f : ℕ → ℕ) (i : ℕ) (h : i < n) :
    ((List.range n).map f).getD i 0 = f i := by
  rw [List.getD_eq_getElem?_getD, List.getElem?_map, List.getElem?_range h]
  rfl

/-- C7 counterexample: on the well-formed 1×1 image with channels
R=1, G=1, B=0 the grayscale reducer stores 1 (the rounded mean of 2/3),
while the truncated mean `(1+1+0)/3` is 0, refuting the claim that each
pixel holds the truncated mean. -/
theorem toGrayscale_trunc_counterexample :
    (toGrayscale ⟨[1, 1, 0, 255], 1, 1⟩).data = [1] ∧
      ((1 + 1 + 0) / 3 : ℕ) = 0 ∧ (1 : ℕ) ≠ 0 := by
  refine ⟨?_, by norm_num, by norm_num⟩
  decide

/-- C7 (amended): on a well-formed RGBA input the grayscale reducer keeps
width and height, produces one byte per pixel, and each pixel's value is
the unweighted mean of R, G, B rounded to the nearest integer (ties to
even, `Uint8ClampedArray` semantics) and clamped to `[0,255]`; alpha is
discarded. -/
theorem toGrayscale_spec (img : PixBuf)
    (_hwf : img.data.length = 4 * (img.width * img.height)) :
    (toGrayscale img).width = img.width ∧ (toGrayscale img).height = img.height ∧
    (toGrayscale img).data.length = img.width * img.height ∧
    ∀ i, i < img.width * img.height →
      (toGrayscale img).data.getD i 0 =
        toU8Clamp (((img.data.getD (4*i) 0 + img.data.getD (4*i+1) 0
          + img.data.getD (4*i+2) 0 : ℕ) : ℚ) / 3) ∧
      (toGrayscale img).data.getD i 0 ≤ 255 := by
  refine ⟨rfl, rfl, by simp [toGrayscale], ?_⟩
  intro i hi
  have hmap : (toGrayscale img).data.getD i 0 =
      toU8Clamp (((img.data.getD (4*i) 0 + img.data.getD (4*i+1) 0
        + img.data.getD (4*i+2) 0 : ℕ) : ℚ) / 3) := by
    simpa [toGrayscale] using getD_map_range (img.width * img.height) _ i hi
  exact ⟨hmap, by rw [hmap]; exact toU8Clamp_le _⟩

/-- C7 witness: the amended grayscale specification instantiated on a
concrete well-formed 2×1 image. -/
theorem toGrayscale_spec_witness :
    (toGrayscale ⟨[10, 20, 30, 255, 0, 0, 0, 255], 2, 1⟩).data.getD 0 0 =
        toU8Clamp (((10 + 20 + 30 : ℕ) : ℚ) / 3) ∧
      (toGrayscale ⟨[10, 20, 30, 255, 0, 0, 0, 255], 2, 1⟩).data.getD 0 0 ≤ 255 := by
  have h := toGrayscale_spec ⟨[10, 20, 30, 255, 0, 0, 0, 255], 2, 1⟩ (by decide)
  have h0 := h.2.2.2 0 (by decide)
  exact ⟨by simpa using h0.1, h0.2⟩

lemma contrastStage_spec_aux :
    ∀ (n : ℕ) (l : List ℕ), l.length ≤ n → l.length % 4 = 0 →
      (contrastStage l).length = l.length ∧
      (∀ i, i % 4 = 3 → (contrastStage l).getD i 0 = l.getD i 0) ∧
      (∀ i, i < l.length → i % 4 ≠ 3 →
        (contrastStage l).getD i 0 =
          toU8Clamp (max 0 (min 255 ((1.05 : ℚ) * l.getD i 0 + 10))) ∧
        (contrastStage l).getD i 0 ≤ 255) := by
  intro n
  induction n with
  | zero =>
    intro l hn _hl
    have : l = [] := List.length_eq_zero.mp (by omega)
    subst this
    refine ⟨rfl, fun i _ => rfl, fun i hi _ => by simp at hi⟩
  | succ n ih =>
    intro l hn hl
    rcases l with _ | ⟨r, _ | ⟨g, _ | ⟨b, _ | ⟨a, rest⟩⟩⟩⟩
    · refine ⟨rfl, fun i _ => rfl, fun i hi _ => by simp at hi⟩
    · simp at hl
    · simp at hl
    · simp at hl
    · have hrestlen : rest.length ≤ n := by simp at hn; omega
      have hrestmod : rest.length % 4 = 0 := by simp at hl ⊢; omega
      obtain ⟨ihlen, ihalpha, ihrgb⟩ := ih rest hrestlen hrestmod
      refine ⟨by simp [contrastStage, ihlen], ?_, ?_⟩
      · intro i hi
        match i with
        | 0 => exact absurd hi (by norm_num)
        | 1 => exact absurd hi (by norm_num)
        | 2 => exact absurd hi (by norm_num)
        | 3 => rfl
        | (k+4) =>
          simp only [contrastStage, List.getD_cons_succ]
          exact ihalpha k (by omega)
      · intro i hi hmod
        match i with
        | 0 => exact ⟨rfl, toU8Clamp_le _⟩
        | 1 => exact ⟨rfl, toU8Clamp_le _⟩
        | 2 => exact ⟨rfl, toU8Clamp_le _⟩
        | 3 => exact absurd rfl hmod
        | (k+4) =>
          simp only [contrastStage, List.getD_cons_succ]
          exact ihrgb k (by simp at hi; omega) (by omega)

/-- C9 counterexample: on the quad `[2,2,2,7]` the contrast stage stores 12
in each color channel, whereas `clamp(1.05·2+10, 0, 255) = 12.1`, so the
stored channel value does not equal the claimed clamp expression (the
store rounds to the nearest integer). -/
theorem contrastStage_counterexample :
    contrastStage [2, 2, 2, 7] = [12, 12, 12, 7] ∧
      ((12 : ℚ) ≠ max 0 (min 255 ((1.05 : ℚ) * 2 + 10))) := by
  constructor
  · decide
  · norm_num

/-- C9 (amended): the contrast/brightness stage maps every R, G, B channel
value `v` to `clamp(1.05*v + 10, 0, 255)` rounded to the nearest integer
(ties to even, `Uint8ClampedArray` semantics), leaves every alpha byte
unchanged, and never produces a value outside `[0,255]`. -/
theorem contrastStage_spec (l : List ℕ) (hl : l.length % 4 = 0) :
    (contrastStage l).length = l.length ∧
    (∀ i, i % 4 = 3 → (contrastStage l).getD i 0 = l.getD i 0) ∧
    (∀ i, i < l.length → i % 4 ≠ 3 →
      (contrastStage l).getD i 0 =
        toU8Clamp (max 0 (min 255 ((1.05 : ℚ) * l.getD i 0 + 10))) ∧
      (contrastStage l).getD i 0 ≤ 255) :=
  contrastStage_spec_aux l.length l le_rfl hl

/-- C9 witness: the amended contrast-stage specification instantiated on a
concrete two-pixel buffer. -/
theorem contrastStage_spec_witness :
    (contrastStage [0, 100, 250, 9, 7, 7, 7, 200]).getD 3 0 = 9 ∧
      (contrastStage [0, 100, 250, 9, 7, 7, 7, 200]).getD 2 0 =
        toU8Clamp (max 0 (min 255 ((1.05 : ℚ) * 250 + 10))) := by
  have h := contrastStage_spec [0, 100, 250, 9, 7, 7, 7, 200] (by decide)
  refine ⟨h.2.1 3 (by norm_num), ?_⟩
  have := (h.2.2 2 (by norm_num) (by norm_num)).1
  simpa using this

/-- C8: the enhancement pipeline's output dimensions are exactly double the
input dimensions when either dimension is below 512, and exactly the input
dimensions when both are at least 512 (for every rendering collaborator
`draw` and every input size). -/
theorem enhanceImage_dims (draw : ℕ → ℕ → List ℕ) (imgW imgH : ℕ) :
    (imgW < 512 ∨ imgH < 512 →
      (enhanceImage draw imgW imgH).width = 2 * imgW ∧
      (enhanceImage draw imgW imgH).height = 2 * imgH) ∧
    (512 ≤ imgW → 512 ≤ imgH →
      (enhanceImage draw imgW imgH).width = imgW ∧
      (enhanceImage draw imgW imgH).height = imgH) := by
  unfold enhanceImage
  constructor
  · intro hcond
    rw [if_pos (by tauto)]
    exact ⟨by simp [Nat.mul_comm], by simp [Nat.mul_comm]⟩
  · intro h1 h2
    rw [if_neg (by omega)]
    exact ⟨rfl, rfl⟩

/-- C8 witness: output dimensions at a 100×600 input (upscaled) and at a
512×512 input (unchanged). -/
theorem enhanceImage_dims_witness :
    ((enhanceImage (fun _ _ => []) 100 600).width = 200 ∧
      (enhanceImage (fun _ _ => []) 100 600).height = 1200) ∧
    ((enhanceImage (fun _ _ => []) 512 512).width = 512 ∧
      (enhanceImage (fun _ _ => []) 512 512).height = 512) :=
  ⟨(enhanceImage_dims (fun _ _ => []) 100 600).1 (Or.inl (by norm_num)),
    (enhanceImage_dims (fun _ _ => []) 512 512).2 (by norm_num) (by norm_num)⟩

/-! ### Flood-fill correctness -/

lemma mem_edgeFinset (m : PixBuf) (p : ℕ × ℕ) :
    p ∈ edgeFinset m ↔ p.1 < m.width ∧ p.2 < m.height ∧ maskAt m p = 255 := by
  simp [edgeFinset, Finset.mem_filter, Finset.mem_product, and_assoc]

lemma edgeFinset_card_le (m : PixBuf) :
    (edgeFinset m).card ≤ m.width * m.height := by
  calc (edgeFinset m).card
      ≤ (Finset.range m.width ×ˢ Finset.range m.height).card := Finset.card_filter_le _ _
    _ = m.width * m.height := by simp

lemma mem_scanList (m : PixBuf) (p : ℕ × ℕ) :
    p ∈ scanList m ↔ p.1 < m.width ∧ p.2 < m.height := by
  rcases p with ⟨x, y⟩
  simp only [scanList, List.mem_flatMap, List.mem_map, List.mem_range, Prod.mk.injEq]
  constructor
  · rintro ⟨y', hy', x', hx', rfl, rfl⟩
    exact ⟨hx', hy'⟩
  · rintro ⟨hx, hy⟩
    exact ⟨y, hy, x, hx, rfl, rfl⟩

lemma visitNbrsAux_spec (m : PixBuf) (p : ℕ × ℕ) :
    ∀ (ds : List (ℤ × ℤ)) (v : Finset (ℕ × ℕ)),
      (visitNbrsAux m p ds v).1 = v ∪ (visitNbrsAux m p ds v).2.toFinset ∧
      (visitNbrsAux m p ds v).2.Nodup ∧
      ∀ q ∈ (visitNbrsAux m p ds v).2, q ∉ v ∧ q ∈ edgeFinset m := by
  intro ds
  induction ds with
  | nil => intro v; simp [visitNbrsAux]
  | cons d ds ih =>
    intro v
    simp only [visitNbrsAux]
    split
    · rename_i hcond
      obtain ⟨h1, h2, h3, h4, h5, h6⟩ := hcond
      obtain ⟨ihv, ihnd, ihmem⟩ := ih (insert (((p.1:ℤ)+d.1).toNat, ((p.2:ℤ)+d.2).toNat) v)
      refine ⟨?_, ?_, ?_⟩
      · simp only [List.toFinset_cons]
        rw [ihv, Finset.insert_union, Finset.union_insert]
      · refine List.Nodup.cons ?_ ihnd
        intro hmem'
        exact (ihmem _ hmem').1 (Finset.mem_insert_self _ _)
      · intro x hx
        rcases List.mem_cons.mp hx with rfl | hx'
        · refine ⟨h6, ?_⟩
          rw [mem_edgeFinset]
          refine ⟨by omega, by omega, h5⟩
        · obtain ⟨hxv, hxe⟩ := ihmem x hx'
          exact ⟨fun hv => hxv (Finset.mem_insert_of_mem hv), hxe⟩
    · exact ih v

lemma visitNbrs_spec (m : PixBuf) (p : ℕ × ℕ) (v : Finset (ℕ × ℕ)) :
    (visitNbrs m p v).1 = v ∪ (visitNbrs m p v).2.toFinset ∧
    (visitNbrs m p v).2.Nodup ∧
    ∀ q ∈ (visitNbrs m p v).2, q ∉ v ∧ q ∈ edgeFinset m :=
  visitNbrsAux_spec m p nbrOffsets v

/-- Collected invariants of the flood-fill loop with sufficient fuel: the
final visited set is the initial one plus the collected points, the
collected list has no duplicates, every collected point was queued or is a
newly discovered unvisited edge pixel, and every queued point is
collected. -/
lemma bfsLoop_spec (m : PixBuf) :
    ∀ (fuel : ℕ) (q : List (ℕ × ℕ)) (v : Finset (ℕ × ℕ)),
      (edgeFinset m \ v).card + q.length ≤ fuel →
      (∀ x ∈ q, x ∈ v) → q.Nodup →
      (bfsLoop m fuel q v).2 = v ∪ (bfsLoop m fuel q v).1.toFinset ∧
      (bfsLoop m fuel q v).1.Nodup ∧
      (∀ x ∈ (bfsLoop m fuel q v).1, x ∈ q ∨ (x ∉ v ∧ x ∈ edgeFinset m)) ∧
      (∀ x ∈ q, x ∈ (bfsLoop m fuel q v).1) := by
  intro fuel
  induction fuel with
  | zero =>
    intro q v hfuel hqv hnd
    have hq : q = [] := List.length_eq_zero.mp (by omega)
    subst hq
    simp [bfsLoop]
  | succ fuel ih =>
    intro q v hfuel hqv hnd
    rcases q with _ | ⟨p, rest⟩
    · simp [bfsLoop]
    · obtain ⟨hv1, hnd2, hmem2⟩ := visitNbrs_spec m p v
      have hpv : p ∈ v := hqv p (List.mem_cons_self p rest)
      have hvsub : v ⊆ (visitNbrs m p v).1 := by
        rw [hv1]; exact Finset.subset_union_left
      have hsubnew : (visitNbrs m p v).2.toFinset ⊆ edgeFinset m \ v := by
        intro x hx
        rw [List.mem_toFinset] at hx
        obtain ⟨hxv, hxe⟩ := hmem2 x hx
        exact Finset.mem_sdiff.mpr ⟨hxe, hxv⟩
      have hcardnew : (visitNbrs m p v).2.toFinset.card = (visitNbrs m p v).2.length :=
        List.toFinset_card_of_nodup hnd2
      have hsdiff : (edgeFinset m \ (visitNbrs m p v).1).card
          + (visitNbrs m p v).2.length = (edgeFinset m \ v).card := by
        rw [hv1]
        have hsd : edgeFinset m \ (v ∪ (visitNbrs m p v).2.toFinset)
            = (edgeFinset m \ v) \ (visitNbrs m p v).2.toFinset := by
          ext x
          simp only [Finset.mem_sdiff, Finset.mem_union]
          tauto
        rw [hsd, Finset.card_sdiff hsubnew]
        have := Finset.card_le_card hsubnew
        omega
      have hfuel' : (edgeFinset m \ (visitNbrs m p v).1).card
          + (rest ++ (visitNbrs m p v).2).length ≤ fuel := by
        rw [List.length_append]
        simp only [List.length_cons] at hfuel
        omega
      have hqv' : ∀ x ∈ rest ++ (visitNbrs m p v).2, x ∈ (visitNbrs m p v).1 := by
        intro x hx
        rcases List.mem_append.mp hx with hx' | hx'
        · exact hvsub (hqv x (List.mem_cons_of_mem _ hx'))
        · rw [hv1]
          exact Finset.mem_union_right _ (List.mem_toFinset.mpr hx')
      have hnd' : (rest ++ (visitNbrs m p v).2).Nodup := by
        refine List.Nodup.append (List.Nodup.of_cons hnd) hnd2 ?_
        intro a ha ha'
        exact (hmem2 a ha').1 (hqv a (List.mem_cons_of_mem _ ha))
      obtain ⟨ih1, ih2, ih3, ih4⟩ := ih (rest ++ (visitNbrs m p v).2) (visitNbrs m p v).1
        hfuel' hqv' hnd'
      have hout : bfsLoop m (fuel + 1) (p :: rest) v =
          (p :: (bfsLoop m fuel (rest ++ (visitNbrs m p v).2) (visitNbrs m p v).1).1,
            (bfsLoop m fuel (rest ++ (visitNbrs m p v).2) (visitNbrs m p v).1).2) := by
        simp only [bfsLoop]
      rw [hout]
      refine ⟨?_, ?_, ?_, ?_⟩
      · ext x
        constructor
        · intro hx
          rw [ih1] at hx
          rcases Finset.mem_union.mp hx with hx' | hx'
          · rw [hv1] at hx'
            rcases Finset.mem_union.mp hx' with hx'' | hx''
            · exact Finset.mem_union_left _ hx''
            · have := ih4 x (List.mem_append_right _ (List.mem_toFinset.mp hx''))
              refine Finset.mem_union_right _ ?_
              rw [List.toFinset_cons]
              exact Finset.mem_insert_of_mem (List.mem_toFinset.mpr this)
          · refine Finset.mem_union_right _ ?_
            rw [List.toFinset_cons]
            exact Finset.mem_insert_of_mem hx'
        · intro hx
          rw [ih1]
          rcases Finset.mem_union.mp hx with hx' | hx'
          · exact Finset.mem_union_left _ (hvsub hx')
          · rw [List.toFinset_cons] at hx'
            rcases Finset.mem_insert.mp hx' with rfl | hx''
            · exact Finset.mem_union_left _ (hvsub hpv)
            · exact Finset.mem_union_right _ hx''
      · refine List.Nodup.cons ?_ ih2
        intro hpin
        rcases ih3 p hpin with hp' | ⟨hp', _⟩
        · rcases List.mem_append.mp hp' with hp'' | hp''
          · exact (List.nodup_cons.mp hnd).1 hp''
          · exact (hmem2 p hp'').1 hpv
        · exact hp' (hvsub hpv)
      · intro x hx
        rcases List.mem_cons.mp hx with rfl | hx'
        · exact Or.inl (List.mem_cons_self _ _)
        · rcases ih3 x hx' with hx'' | ⟨hxv, hxe⟩
          · rcases List.mem_append.mp hx'' with hx3 | hx3
            · exact Or.inl (List.mem_cons_of_mem _ hx3)
            · obtain ⟨h1, h2⟩ := hmem2 x hx3
              exact Or.inr ⟨h1, h2⟩
          · exact Or.inr ⟨fun hv => hxv (hvsub hv), hxe⟩
      · intro x hx
        rcases List.mem_cons.mp hx with rfl | hx'
        · exact List.mem_cons_self _ _
        · exact List.mem_cons_of_mem _ (ih4 x (List.mem_append_left _ hx'))

lemma scanCell_spec (m : PixBuf) (st : Finset (ℕ × ℕ) × List (List (ℕ × ℕ)))
    (p : ℕ × ℕ) (hp : p.1 < m.width ∧ p.2 < m.height) (hinv : ScanInv m st) :
    ScanInv m (scanCell m st p) ∧ st.1 ⊆ (scanCell m st p).1 ∧
      (maskAt m p = 255 → p ∈ (scanCell m st p).1) := by
  obtain ⟨hnd, htf, hsub⟩ := hinv
  simp only [scanCell]
  split
  · rename_i hcond
    obtain ⟨hval, hvis⟩ := hcond
    have hpe : p ∈ edgeFinset m := (mem_edgeFinset m p).mpr ⟨hp.1, hp.2, hval⟩
    have hfuel : (edgeFinset m \ insert p st.1).card + ([p] : List (ℕ × ℕ)).length
        ≤ m.width * m.height + 1 := by
      have h1 : (edgeFinset m \ insert p st.1).card ≤ (edgeFinset m).card :=
        Finset.card_le_card Finset.sdiff_subset
      have h2 := edgeFinset_card_le m
      simp only [List.length_singleton]
      omega
    have hq : ∀ x ∈ ([p] : List (ℕ × ℕ)), x ∈ insert p st.1 := by
      intro x hx
      rw [List.mem_singleton] at hx
      subst hx
      exact Finset.mem_insert_self _ _
    obtain ⟨hb1, hb2, hb3, hb4⟩ :=
      bfsLoop_spec m (m.width * m.height + 1) [p] (insert p st.1) hfuel hq
        (List.nodup_singleton p)
    have hpin : p ∈ (bfsLoop m (m.width * m.height + 1) [p] (insert p st.1)).1 :=
      hb4 p (List.mem_singleton.mpr rfl)
    refine ⟨⟨?_, ?_, ?_⟩, ?_, ?_⟩
    · -- new joined contour list has no duplicates
      simp only [List.flatten_append, List.flatten_cons, List.flatten_nil, List.append_nil]
      refine List.Nodup.append hnd hb2 ?_
      intro a ha ha'
      have hav : a ∈ st.1 := by
        rw [← htf]
        exact List.mem_toFinset.mpr ha
      rcases hb3 a ha' with ha'' | ⟨ha'', _⟩
      · rw [List.mem_singleton] at ha''
        subst ha''
        exact hvis hav
      · exact ha'' (Finset.mem_insert_of_mem hav)
    · -- joined points = new visited set
      simp only [List.flatten_append, List.flatten_cons, List.flatten_nil, List.append_nil]
      rw [List.toFinset_append, htf, hb1]
      ext x
      simp only [Finset.mem_union, Finset.mem_insert]
      constructor
      · rintro (hx | hx)
        · exact Or.inl (Or.inr hx)
        · exact Or.inr hx
      · rintro ((rfl | hx) | hx)
        · exact Or.inr (List.mem_toFinset.mpr hpin)
        · exact Or.inl hx
        · exact Or.inr hx
    · -- new visited set still contains only edge pixels
      intro x hx
      rw [hb1] at hx
      rcases Finset.mem_union.mp hx with hx' | hx'
      · rcases Finset.mem_insert.mp hx' with rfl | hx''
        · exact hpe
        · exact hsub hx''
      · rcases hb3 x (List.mem_toFinset.mp hx') with hx'' | ⟨_, hx''⟩
        · rw [List.mem_singleton] at hx''
          subst hx''
          exact hpe
        · exact hx''
    · intro x hx
      rw [hb1]
      exact Finset.mem_union_left _ (Finset.mem_insert_of_mem hx)
    · intro _
      rw [hb1]
      exact Finset.mem_union_right _ (List.mem_toFinset.mpr hpin)
  · rename_i hcond
    push_neg at hcond
    refine ⟨⟨hnd, htf, hsub⟩, subset_rfl, fun h255 => hcond h255⟩

lemma scanFold_spec (m : PixBuf) :
    ∀ (cells : List (ℕ × ℕ)) (st : Finset (ℕ × ℕ) × List (List (ℕ × ℕ))),
      (∀ c ∈ cells, c.1 < m.width ∧ c.2 < m.height) → ScanInv m st →
      ScanInv m (cells.foldl (scanCell m) st) ∧
      st.1 ⊆ (cells.foldl (scanCell m) st).1 ∧
      (∀ c ∈ cells, maskAt m c = 255 → c ∈ (cells.foldl (scanCell m) st).1) := by
  intro cells
  induction cells with
  | nil =>
    intro st _ hinv
    exact ⟨hinv, subset_rfl, by simp⟩
  | cons c cs ih =>
    intro st hb hinv
    obtain ⟨h1, h2, h3⟩ := scanCell_spec m st c (hb c (List.mem_cons_self _ _)) hinv
    obtain ⟨ih1, ih2, ih3⟩ :=
      ih (scanCell m st c) (fun c' hc' => hb c' (List.mem_cons_of_mem _ hc')) h1
    refine ⟨ih1, h2.trans ih2, ?_⟩
    intro c' hc' h255
    rcases List.mem_cons.mp hc' with rfl | hc''
    · exact ih2 (h3 h255)
    · exact ih3 c' hc'' h255

lemma findContours_spec (m : PixBuf) :
    (findContours m).flatten.Nodup ∧ (findContours m).flatten.toFinset = edgeFinset m := by
  have hcells : ∀ c ∈ scanList m, c.1 < m.width ∧ c.2 < m.height :=
    fun c hc => (mem_scanList m c).mp hc
  have hinv0 : ScanInv m (∅, []) := ⟨by simp, by simp, by simp⟩
  obtain ⟨⟨hnd, htf, hsub⟩, _, hcomp⟩ := scanFold_spec m (scanList m) (∅, []) hcells hinv0
  refine ⟨hnd, ?_⟩
  show (List.foldl (scanCell m) (∅, []) (scanList m)).2.flatten.toFinset = edgeFinset m
  apply Finset.Subset.antisymm
  · rw [htf]
    exact hsub
  · intro e he
    rw [htf]
    obtain ⟨hw, hh, hval⟩ := (mem_edgeFinset m e).mp he
    exact hcomp e ((mem_scanList m e).mpr ⟨hw, hh⟩) hval

/-- C5: the contours returned by `findContours` partition the edge pixels —
the concatenation of all contours has no duplicate point, a point belongs
to it exactly when it is an in-bounds pixel holding 255, and the result
depends only on the mask contents. -/
theorem findContours_partition_thm (m : PixBuf) :
    (findContours m).flatten.Nodup ∧
    (∀ p : ℕ × ℕ, p ∈ (findContours m).flatten ↔
      p.1 < m.width ∧ p.2 < m.height ∧ maskAt m p = 255) ∧
    ∀ m₂ : PixBuf, m.data = m₂.data → m.width = m₂.width → m.height = m₂.height →
      findContours m = findContours m₂ := by
  obtain ⟨hnd, htf⟩ := findContours_spec m
  refine ⟨hnd, ?_, ?_⟩
  · intro p
    rw [← mem_edgeFinset, ← htf, List.mem_toFinset]
  · intro m₂ hd hw hh
    cases m
    cases m₂
    simp only at hd hw hh
    subst hd
    subst hw
    subst hh
    rfl

/-! ### Soundness of the selected box -/

lemma foldl_min_le_init (f : ℕ × ℕ → ℕ) :
    ∀ (l : List (ℕ × ℕ)) (a : ℕ), l.foldl (fun acc q => min acc (f q)) a ≤ a := by
  intro l
  induction l with
  | nil => intro a; simp
  | cons q l ih =>
    intro a
    exact le_trans (ih (min a (f q))) (min_le_left _ _)

lemma le_foldl_max_init (f : ℕ × ℕ → ℕ) :
    ∀ (l : List (ℕ × ℕ)) (a : ℕ), a ≤ l.foldl (fun acc q => max acc (f q)) a := by
  intro l
  induction l with
  | nil => intro a; simp
  | cons q l ih =>
    intro a
    exact le_trans (le_max_left _ _) (ih (max a (f q)))

lemma foldl_max_lt_of (f : ℕ × ℕ → ℕ) :
    ∀ (l : List (ℕ × ℕ)) (a W : ℕ), a < W → (∀ q ∈ l, f q < W) →
      l.foldl (fun acc q => max acc (f q)) a < W := by
  intro l
  induction l with
  | nil => intro a W ha _; simpa using ha
  | cons q l ih =>
    intro a W ha hl
    exact ih (max a (f q)) W (max_lt ha (hl q (List.mem_cons_self _ _)))
      fun q' hq' => hl q' (List.mem_cons_of_mem _ hq')

lemma getBoundingRect_bounds (c : List (ℕ × ℕ)) (W H : ℕ)
    (hb : ∀ p ∈ c, p.1 < W ∧ p.2 < H) :
    0 ≤ (getBoundingRect c).x ∧ 0 ≤ (getBoundingRect c).y ∧
    0 ≤ (getBoundingRect c).w ∧ 0 ≤ (getBoundingRect c).h ∧
    (getBoundingRect c).x + (getBoundingRect c).w ≤ (W : ℚ) ∧
    (getBoundingRect c).y + (getBoundingRect c).h ≤ (H : ℚ) := by
  match c with
  | [] =>
    refine ⟨le_refl 0, le_refl 0, le_refl 0, le_refl 0, ?_, ?_⟩ <;>
      simp [getBoundingRect]
  | p :: rest =>
    have hminx : rest.foldl (fun acc q => min acc q.1) p.1
        ≤ rest.foldl (fun acc q => max acc q.1) p.1 :=
      le_trans (foldl_min_le_init _ rest p.1) (le_foldl_max_init _ rest p.1)
    have hminy : rest.foldl (fun acc q => min acc q.2) p.2
        ≤ rest.foldl (fun acc q => max acc q.2) p.2 :=
      le_trans (foldl_min_le_init _ rest p.2) (le_foldl_max_init _ rest p.2)
    have hmaxx : rest.foldl (fun acc q => max acc q.1) p.1 < W :=
      foldl_max_lt_of _ rest p.1 W (hb p (List.mem_cons_self _ _)).1
        fun q hq => (hb q (List.mem_cons_of_mem _ hq)).1
    have hmaxy : rest.foldl (fun acc q => max acc q.2) p.2 < H :=
      foldl_max_lt_of _ rest p.2 H (hb p (List.mem_cons_self _ _)).2
        fun q hq => (hb q (List.mem_cons_of_mem _ hq)).2
    simp only [getBoundingRect]
    refine ⟨Nat.cast_nonneg _, Nat.cast_nonneg _, ?_, ?_, ?_, ?_⟩
    · have : ((rest.foldl (fun acc q => min acc q.1) p.1 : ℕ) : ℚ)
          ≤ ((rest.foldl (fun acc q => max acc q.1) p.1 : ℕ) : ℚ) := by exact_mod_cast hminx
      linarith
    · have : ((rest.foldl (fun acc q => min acc q.2) p.2 : ℕ) : ℚ)
          ≤ ((rest.foldl (fun acc q => max acc q.2) p.2 : ℕ) : ℚ) := by exact_mod_cast hminy
      linarith
    · have : ((rest.foldl (fun acc q => max acc q.1) p.1 : ℕ) : ℚ) ≤ (W : ℚ) := by
        exact_mod_cast le_of_lt hmaxx
      linarith
    · have : ((rest.foldl (fun acc q => max acc q.2) p.2 : ℕ) : ℚ) ≤ (H : ℚ) := by
        exact_mod_cast le_of_lt hmaxy
      linarith

lemma mergeRects_good (W H : ℕ) (mA : ℚ) (a b : CropBox)
    (ha : GoodBox W H mA a) (hb : GoodBox W H mA b) :
    GoodBox W H mA (mergeRects a b) := by
  obtain ⟨hax, hay, haw, hah, haxw, hayh, haar⟩ := ha
  obtain ⟨hbx, hby, hbw, hbh, hbxw, hbyh, _⟩ := hb
  have hw1 : a.w ≤ max (a.x + a.w) (b.x + b.w) - min a.x b.x := by
    have h1 : a.x + a.w ≤ max (a.x + a.w) (b.x + b.w) := le_max_left _ _
    have h2 : min a.x b.x ≤ a.x := min_le_left _ _
    linarith
  have hh1 : a.h ≤ max (a.y + a.h) (b.y + b.h) - min a.y b.y := by
    have h1 : a.y + a.h ≤ max (a.y + a.h) (b.y + b.h) := le_max_left _ _
    have h2 : min a.y b.y ≤ a.y := min_le_left _ _
    linarith
  refine ⟨le_min hax hbx, le_min hay hby, le_trans haw hw1, le_trans hah hh1, ?_, ?_, ?_⟩
  · have : max (a.x + a.w) (b.x + b.w) ≤ (W : ℚ) := max_le haxw hbxw
    simp only [mergeRects]
    linarith
  · have : max (a.y + a.h) (b.y + b.h) ≤ (H : ℚ) := max_le hayh hbyh
    simp only [mergeRects]
    linarith
  · have harea : a.w * a.h ≤ (max (a.x + a.w) (b.x + b.w) - min a.x b.x)
        * (max (a.y + a.h) (b.y + b.h) - min a.y b.y) :=
      mul_le_mul hw1 hh1 hah (by linarith)
    simp only [mergeRects]
    linarith

lemma findPartner_good (W H : ℕ) (mA margin : ℚ) (a : CropBox) :
    ∀ (l : List CropBox) (mb : CropBox) (rest' : List CropBox),
      GoodBox W H mA a → (∀ x ∈ l, GoodBox W H mA x) →
      findPartner margin a l = some (mb, rest') →
      GoodBox W H mA mb ∧ ∀ x ∈ rest', GoodBox W H mA x := by
  intro l
  induction l with
  | nil => intro mb rest' _ _ h; simp [findPartner] at h
  | cons b rest ih =>
    intro mb rest' ha hl h
    simp only [findPartner] at h
    split at h
    · simp only [Option.some.injEq, Prod.mk.injEq] at h
      obtain ⟨h1, h2⟩ := h
      subst h1
      subst h2
      exact ⟨mergeRects_good W H mA a b ha (hl b (List.mem_cons_self _ _)),
        fun x hx => hl x (List.mem_cons_of_mem _ hx)⟩
    · rcases hfp : findPartner margin a rest with _ | ⟨m', rest''⟩ <;> rw [hfp] at h
      · simp at h
      · simp only [Option.some.injEq, Prod.mk.injEq] at h
        obtain ⟨h1, h2⟩ := h
        subst h1
        subst h2
        obtain ⟨hm, hr⟩ := ih m' rest'' ha (fun x hx => hl x (List.mem_cons_of_mem _ hx)) hfp
        refine ⟨hm, ?_⟩
        intro x hx
        rcases List.mem_cons.mp hx with rfl | hx'
        · exact hl x (List.mem_cons_self _ _)
        · exact hr x hx'

lemma mergePass_good (W H : ℕ) (mA margin : ℚ) :
    ∀ (l l' : List CropBox), (∀ x ∈ l, GoodBox W H mA x) →
      mergePass margin l = some l' → ∀ x ∈ l', GoodBox W H mA x := by
  intro l
  induction l with
  | nil => intro l' _ h; simp [mergePass] at h
  | cons a rest ih =>
    intro l' hl h
    simp only [mergePass] at h
    rcases hfp : findPartner margin a rest with _ | ⟨m', rest''⟩ <;> rw [hfp] at h
    · rcases hmp : mergePass margin rest with _ | rest'' <;> rw [hmp] at h
      · simp at h
      · simp only [Option.some.injEq] at h
        subst h
        intro x hx
        rcases List.mem_cons.mp hx with rfl | hx'
        · exact hl x (List.mem_cons_self _ _)
        · exact ih rest'' (fun y hy => hl y (List.mem_cons_of_mem _ hy)) hmp x hx'
    · simp only [Option.some.injEq] at h
      subst h
      obtain ⟨hm, hr⟩ := findPartner_good W H mA margin a rest m' rest''
        (hl a (List.mem_cons_self _ _)) (fun y hy => hl y (List.mem_cons_of_mem _ hy)) hfp
      intro x hx
      rcases List.mem_cons.mp hx with rfl | hx'
      · exact hm
      · exact hr x hx'

lemma mergeLoop_good (W H : ℕ) (mA margin : ℚ) :
    ∀ (fuel : ℕ) (l : List CropBox), (∀ x ∈ l, GoodBox W H mA x) →
      ∀ x ∈ mergeLoop margin fuel l, GoodBox W H mA x := by
  intro fuel
  induction fuel with
  | zero => intro l hl; simpa [mergeLoop] using hl
  | succ n ih =>
    intro l hl
    simp only [mergeLoop]
    rcases hmp : mergePass margin l with _ | l'
    · exact hl
    · exact ih l' (mergePass_good W H mA margin l l' hl hmp)

lemma mergeNearbyBoxes_good (W H : ℕ) (mA : ℚ) (boxes : List CropBox)
    (imgW imgH : ℚ) (hl : ∀ x ∈ boxes, GoodBox W H mA x) :
    ∀ x ∈ mergeNearbyBoxes boxes imgW imgH, GoodBox W H mA x := by
  unfold mergeNearbyBoxes
  split
  · exact hl
  · exact mergeLoop_good W H mA _ boxes.length boxes hl

lemma foldl_pickLarger_mem :
    ∀ (l : List CropBox) (b : CropBox), l.foldl pickLarger b ∈ b :: l := by
  intro l
  induction l with
  | nil => intro b; simp
  | cons c l ih =>
    intro b
    have hstep := ih (pickLarger b c)
    by_cases hif : c.w * c.h > b.w * b.h
    · rw [show pickLarger b c = c from if_pos hif] at hstep
      rcases List.mem_cons.mp hstep with h | h
      · rw [List.foldl_cons, show pickLarger b c = c from if_pos hif, h]
        exact List.mem_cons_of_mem _ (List.mem_cons_self _ _)
      · rw [List.foldl_cons, show pickLarger b c = c from if_pos hif]
        exact List.mem_cons_of_mem _ (List.mem_cons_of_mem _ h)
    · rw [show pickLarger b c = b from if_neg hif] at hstep
      rcases List.mem_cons.mp hstep with h | h
      · rw [List.foldl_cons, show pickLarger b c = b from if_neg hif, h]
        exact List.mem_cons_self _ _
      · rw [List.foldl_cons, show pickLarger b c = b from if_neg hif]
        exact List.mem_cons_of_mem _ (List.mem_cons_of_mem _ h)

lemma finalCheck_some (best : CropBox) (W H : ℕ) (b : CropBox)
    (h : finalCheck best W H = some b) : b = best := by
  unfold finalCheck at h
  split at h
  · simp at h
  · simp only [Option.some.injEq] at h
    exact h.symm

/-- Every box the pipeline returns satisfies the carried invariant. -/
lemma suggestCropPipeline_good (W H : ℕ) (data : List ℕ) (b : CropBox)
    (h : suggestCropPipeline W H data = some b) :
    GoodBox W H (((W * H : ℕ) : ℚ) * 0.015) b := by
  simp only [suggestCropPipeline] at h
  split at h
  · exact absurd h (by simp)
  · split at h
    · exact absurd h (by simp)
    · split at h
      · exact absurd h (by simp)
      · rename_i hmergedne
        have hvalid : ∀ x ∈ (((thresholds.map fun t =>
            findContours (cannyEdgeDetector (gaussianBlur (toGrayscale ⟨data, W, H⟩)) t)).flatten.map
              getBoundingRect).filter
                fun bx => decide (bx.w * bx.h > ((W * H : ℕ) : ℚ) * 0.015)),
            GoodBox W H (((W * H : ℕ) : ℚ) * 0.015) x := by
          intro x hx
          rw [List.mem_filter] at hx
          obtain ⟨hxb, hxcond⟩ := hx
          rw [List.mem_map] at hxb
          obtain ⟨c, hc, rfl⟩ := hxb
          rw [List.mem_flatten] at hc
          obtain ⟨cs, hcs, hccs⟩ := hc
          rw [List.mem_map] at hcs
          obtain ⟨t, _, rfl⟩ := hcs
          have hpts : ∀ p ∈ c, p.1 < W ∧ p.2 < H := by
            intro p hp
            have hmem : p ∈ (findContours (cannyEdgeDetector
                (gaussianBlur (toGrayscale ⟨data, W, H⟩)) t)).flatten :=
              List.mem_flatten.mpr ⟨c, hccs, hp⟩
            have htf := (findContours_spec (cannyEdgeDetector
              (gaussianBlur (toGrayscale ⟨data, W, H⟩)) t)).2
            have hpe : p ∈ edgeFinset (cannyEdgeDetector
                (gaussianBlur (toGrayscale ⟨data, W, H⟩)) t) := by
              rw [← htf]
              exact List.mem_toFinset.mpr hmem
            have hb := (mem_edgeFinset _ p).mp hpe
            exact ⟨hb.1, hb.2.1⟩
          have hbound := getBoundingRect_bounds c W H hpts
          have harea : ((W * H : ℕ) : ℚ) * 0.015
              < (getBoundingRect c).w * (getBoundingRect c).h := of_decide_eq_true hxcond
          exact ⟨hbound.1, hbound.2.1, hbound.2.2.1, hbound.2.2.2.1,
            hbound.2.2.2.2.1, hbound.2.2.2.2.2, harea⟩
        have hmerged := mergeNearbyBoxes_good W H (((W * H : ℕ) : ℚ) * 0.015) _
          (W : ℚ) (H : ℚ) hvalid
        rcases hmbl : mergeNearbyBoxes (((thresholds.map fun t =>
            findContours (cannyEdgeDetector (gaussianBlur (toGrayscale ⟨data, W, H⟩)) t)).flatten.map
              getBoundingRect).filter
                fun bx => decide (bx.w * bx.h > ((W * H : ℕ) : ℚ) * 0.015))
            (W : ℚ) (H : ℚ) with _ | ⟨b0, bs⟩
        · rw [hmbl] at hmergedne
          simp at hmergedne
        · rw [hmbl] at h
          simp only [selectStage] at h
          have hbmem : bs.foldl pickLarger b0 ∈ b0 :: bs := foldl_pickLarger_mem bs b0
          have hgood : GoodBox W H (((W * H : ℕ) : ℚ) * 0.015) (bs.foldl pickLarger b0) := by
            apply hmerged
            rw [hmbl]
            exact hbmem
          rw [finalCheck_some _ _ _ _ h]
          exact hgood

/-- C1 counterexample: with the canvas context unavailable, the `try` body
does raise, but `suggestCropWithEdgeDetection` returns `null` — the error
is swallowed by its own `catch`, not propagated to the caller. -/
theorem suggestCrop_ctx_counterexample :
    suggestCropTry ⟨false, 1, 1, [0, 0, 0, 255]⟩
        = Except.error "Could not get canvas context" ∧
      suggestCropWithEdgeDetection ⟨false, 1, 1, [0, 0, 0, 255]⟩ = none :=
  ⟨rfl, rfl⟩

/-- C1 (amended): when the canvas context is unavailable the function's
internal attempt raises `"Could not get canvas context"`, but the
surrounding catch converts it to the no-suggestion outcome, so the caller
receives `null` rather than a propagated error. -/
theorem suggestCrop_ctx_returns_none (e : CanvasEnv) (hctx : e.ctxOk = false) :
    suggestCropTry e = Except.error "Could not get canvas context" ∧
      suggestCropWithEdgeDetection e = none := by
  have h1 : suggestCropTry e = Except.error "Could not get canvas context" := by
    simp [suggestCropTry, hctx]
  refine ⟨h1, ?_⟩
  unfold suggestCropWithEdgeDetection
  rw [h1]

/-- C1 witness: the amended statement at a concrete failing environment. -/
theorem suggestCrop_ctx_returns_none_witness :
    suggestCropTry ⟨false, 2, 2, []⟩ = Except.error "Could not get canvas context" ∧
      suggestCropWithEdgeDetection ⟨false, 2, 2, []⟩ = none :=
  suggestCrop_ctx_returns_none ⟨false, 2, 2, []⟩ rfl

/-- C2: every box returned by `suggestCropWithEdgeDetection` on an image of
positive dimensions has positive width and height and lies inside the
image: `0 ≤ x`, `0 ≤ y`, `x + w ≤ imageWidth`, `y + h ≤ imageHeight`. -/
theorem suggestCrop_box_valid (e : CanvasEnv) (b : CropBox)
    (hW : 0 < e.width) (hH : 0 < e.height)
    (h : suggestCropWithEdgeDetection e = some b) :
    0 < b.w ∧ 0 < b.h ∧ 0 ≤ b.x ∧ 0 ≤ b.y ∧
      b.x + b.w ≤ (e.width : ℚ) ∧ b.y + b.h ≤ (e.height : ℚ) := by
  have hp : suggestCropPipeline e.width e.height e.data = some b := by
    unfold suggestCropWithEdgeDetection suggestCropTry at h
    by_cases hctx : e.ctxOk
    · rw [if_pos hctx] at h
      exact h
    · rw [if_neg hctx] at h
      simp at h
  obtain ⟨hx, hy, hw, hh0, hxw, hyh, har⟩ :=
    suggestCropPipeline_good e.width e.height e.data b hp
  have hWH : (0:ℚ) < ((e.width * e.height : ℕ) : ℚ) * 0.015 := by
    have hc : (0:ℚ) < ((e.width * e.height : ℕ) : ℚ) := by
      exact_mod_cast Nat.mul_pos hW hH
    have : (0:ℚ) < 0.015 := by norm_num
    exact mul_pos hc this
  have harea : 0 < b.w * b.h := lt_trans hWH har
  have hwpos : 0 < b.w := by
    rcases lt_or_eq_of_le hw with h' | h'
    · exact h'
    · rw [← h'] at harea
      simp at harea
  have hhpos : 0 < b.h := by
    rcases lt_or_eq_of_le hh0 with h' | h'
    · exact h'
    · rw [← h'] at harea
      simp at harea
  exact ⟨hwpos, hhpos, hx, hy, hxw, hyh⟩

/-- C10: every box returned by `suggestCropWithEdgeDetection` on an image
of positive dimensions has area strictly greater than
`0.015 * imageWidth * imageHeight`, thanks to the area filter and the fact
that merging never shrinks a box. -/
theorem suggestCrop_area_above_threshold (e : CanvasEnv) (b : CropBox)
    (_hW : 0 < e.width) (_hH : 0 < e.height)
    (h : suggestCropWithEdgeDetection e = some b) :
    (0.015 : ℚ) * (e.width : ℚ) * (e.height : ℚ) < b.w * b.h := by
  have hp : suggestCropPipeline e.width e.height e.data = some b := by
    unfold suggestCropWithEdgeDetection suggestCropTry at h
    by_cases hctx : e.ctxOk
    · rw [if_pos hctx] at h
      exact h
    · rw [if_neg hctx] at h
      simp at h
  have har := (suggestCropPipeline_good e.width e.height e.data b hp).2.2.2.2.2.2
  calc (0.015 : ℚ) * (e.width : ℚ) * (e.height : ℚ)
      = ((e.width * e.height : ℕ) : ℚ) * 0.015 := by push_cast; ring
    _ < b.w * b.h := har

/-- C6: with a nonempty merged pool on a positive-area image, the selector
returns no-suggestion exactly when the maximum-area box's area exceeds 95%
of the image area; a box of exactly 96% of image area is rejected and one
of exactly 94% is returned. -/
theorem selectStage_reject_iff (b0 : CropBox) (bs : List CropBox) (W H : ℕ)
    (hW : 0 < W) (hH : 0 < H) :
    (selectStage (b0 :: bs) W H = none ↔
      95/100 * ((W : ℚ) * (H : ℚ))
        < (bs.foldl pickLarger b0).w * (bs.foldl pickLarger b0).h) ∧
    ((bs.foldl pickLarger b0).w * (bs.foldl pickLarger b0).h
        = 96/100 * ((W : ℚ) * (H : ℚ)) → selectStage (b0 :: bs) W H = none) ∧
    ((bs.foldl pickLarger b0).w * (bs.foldl pickLarger b0).h
        = 94/100 * ((W : ℚ) * (H : ℚ)) →
      selectStage (b0 :: bs) W H = some (bs.foldl pickLarger b0)) := by
  have hpos : (0:ℚ) < (W:ℚ) * (H:ℚ) := by
    have h1 : (0:ℚ) < (W:ℚ) := by exact_mod_cast hW
    have h2 : (0:ℚ) < (H:ℚ) := by exact_mod_cast hH
    exact mul_pos h1 h2
  have hsel : selectStage (b0 :: bs) W H
      = finalCheck (bs.foldl pickLarger b0) W H := rfl
  have hiff : ((bs.foldl pickLarger b0).w * (bs.foldl pickLarger b0).h
        / ((W:ℚ) * (H:ℚ)) > 0.95) ↔
      95/100 * ((W:ℚ) * (H:ℚ))
        < (bs.foldl pickLarger b0).w * (bs.foldl pickLarger b0).h := by
    rw [gt_iff_lt, lt_div_iff₀ hpos]
    constructor <;> intro h' <;> nlinarith [h']
  refine ⟨?_, ?_, ?_⟩
  · rw [hsel]
    unfold finalCheck
    split_ifs with hc
    · exact iff_of_true rfl (hiff.mp hc)
    · exact iff_of_false (by simp) fun hgt => hc (hiff.mpr hgt)
  · intro h96
    rw [hsel]
    unfold finalCheck
    rw [if_pos]
    exact hiff.mpr (by nlinarith [hpos, h96])
  · intro h94
    rw [hsel]
    unfold finalCheck
    rw [if_neg]
    intro hc
    have := hiff.mp hc
    nlinarith [hpos, h94, this]

/-- C6 witness: a 12×8 box in a 10×10 image (exactly 96% of the area) is
rejected; a (47/5)×10 box (exactly 94%) is returned. -/
theorem selectStage_reject_iff_witness :
    selectStage [⟨0, 0, 12, 8⟩] 10 10 = none ∧
      selectStage [⟨0, 0, 47/5, 10⟩] 10 10 = some ⟨0, 0, 47/5, 10⟩ :=
  ⟨(selectStage_reject_iff ⟨0, 0, 12, 8⟩ [] 10 10 (by norm_num) (by norm_num)).2.1
      (by norm_num),
    (selectStage_reject_iff ⟨0, 0, 47/5, 10⟩ [] 10 10 (by norm_num) (by norm_num)).2.2
      (by norm_num)⟩

/-- On the demo image the whole detection pipeline succeeds and suggests
the box around the white square together with its detected edge ring. -/
lemma suggestCrop_demo_eval :
    suggestCropWithEdgeDetection demoEnv = some ⟨1, 1, 7, 7⟩ := by decide

/-- C2 witness: the box-validity theorem instantiated on the demo image. -/
theorem suggestCrop_box_valid_witness :
    0 < demoEnv.width ∧ 0 < demoEnv.height ∧
      suggestCropWithEdgeDetection demoEnv = some ⟨1, 1, 7, 7⟩ ∧
      (0 < (⟨1, 1, 7, 7⟩ : CropBox).w ∧ 0 < (⟨1, 1, 7, 7⟩ : CropBox).h ∧
        0 ≤ (⟨1, 1, 7, 7⟩ : CropBox).x ∧ 0 ≤ (⟨1, 1, 7, 7⟩ : CropBox).y ∧
        (⟨1, 1, 7, 7⟩ : CropBox).x + (⟨1, 1, 7, 7⟩ : CropBox).w ≤ (demoEnv.width : ℚ) ∧
        (⟨1, 1, 7, 7⟩ : CropBox).y + (⟨1, 1, 7, 7⟩ : CropBox).h ≤ (demoEnv.height : ℚ)) :=
  ⟨by decide, by decide, suggestCrop_demo_eval,
    suggestCrop_box_valid demoEnv ⟨1, 1, 7, 7⟩ (by decide) (by decide) suggestCrop_demo_eval⟩

/-- C10 witness: the area lower bound instantiated on the demo image. -/
theorem suggestCrop_area_above_threshold_witness :
    0 < demoEnv.width ∧ 0 < demoEnv.height ∧
      suggestCropWithEdgeDetection demoEnv = some ⟨1, 1, 7, 7⟩ ∧
      (0.015 : ℚ) * (demoEnv.width : ℚ) * (demoEnv.height : ℚ)
        < (⟨1, 1, 7, 7⟩ : CropBox).w * (⟨1, 1, 7, 7⟩ : CropBox).h :=
  ⟨by decide, by decide, suggestCrop_demo_eval,
    suggestCrop_area_above_threshold demoEnv ⟨1, 1, 7, 7⟩ (by decide) (by decide)
      suggestCrop_demo_eval⟩

/-- C5 witness: the partition theorem instantiated on a concrete 2×2 mask
with two isolated edge pixels. -/
theorem findContours_partition_witness :
    (findContours ⟨[255, 0, 0, 255], 2, 2⟩).flatten.Nodup ∧
      ((0, 0) ∈ (findContours ⟨[255, 0, 0, 255], 2, 2⟩).flatten ↔
        (0 < 2 ∧ 0 < 2 ∧ maskAt ⟨[255, 0, 0, 255], 2, 2⟩ (0, 0) = 255)) ∧
      findContours ⟨[255, 0, 0, 255], 2, 2⟩ = findContours ⟨[255, 0, 0, 255], 2, 2⟩ :=
  ⟨(findContours_partition_thm ⟨[255, 0, 0, 255], 2, 2⟩).1,
    (findContours_partition_thm ⟨[255, 0, 0, 255], 2, 2⟩).2.1 (0, 0),
    (findContours_partition_thm ⟨[255, 0, 0, 255], 2, 2⟩).2.2
      ⟨[255, 0, 0, 255], 2, 2⟩ rfl rfl rfl⟩

end TikCrop
